import Mathlib

/-!
Verification of the BPE tokenizer in `week15/bpe.py`.

Symbols are modelled as `Nat` (Python ints are unbounded and non-negative
here).  Python's insertion-ordered `dict` is modelled as an association list
together with `upsert` (assignment `d[k] = v`: update in place when the key
exists, append otherwise); `alookup` is `d[k]` / `k in d`.  Byte strings are
`List Nat` with entries below 256, and Python strings are represented by
their list of Unicode scalar values.  The unbounded `while` loop of `decode`
is embedded with an explicit fuel parameter (`none` = the loop did not
finish within the given fuel).
-/

set_option maxRecDepth 8000

namespace BPE

/-- Association-list lookup, the model of Python `d[k]` / `d.get(k)`. -/
def alookup {α β : Type} [DecidableEq α] : List (α × β) → α → Option β
  | [], _ => none
  | (k, v) :: t, a => if k = a then some v else alookup t a

/-- Lookup with a default value, the model of Python `d.get(k, dflt)`. -/
def alookupD {α β : Type} [DecidableEq α] (l : List (α × β)) (a : α) (d : β) : β :=
  (alookup l a).getD d

/-- Python dict assignment `d[k] = v`: overwrite in place if `k` is already a
key (keeping its position in iteration order), otherwise append. -/
def upsert {α β : Type} [DecidableEq α] : List (α × β) → α → β → List (α × β)
  | [], k, v => [(k, v)]
  | (k', v') :: t, k, v => if k' = k then (k, v) :: t else (k', v') :: upsert t k v

/-- One iteration of the loop body of `get_stats`:
`counts[pair] = counts.get(pair, 0) + 1`. -/
def bump : List ((Nat × Nat) × Nat) → Nat × Nat → List ((Nat × Nat) × Nat)
  | [], p => [(p, 1)]
  | (q, c) :: t, p => if q = p then (q, c + 1) :: t else (q, c) :: bump t p

/-- The `for i in range(len(tokens) - 1)` loop of `get_stats`, folded over the
suffix of the token list that still has at least two elements. -/
def get_stats_aux : List ((Nat × Nat) × Nat) → List Nat → List ((Nat × Nat) × Nat)
  | acc, a :: b :: t => get_stats_aux (bump acc (a, b)) (b :: t)
  | acc, _ => acc

/-- `get_stats(tokens)` from the source: count the frequency of each adjacent
pair, in first-occurrence (dict insertion) order. -/
def get_stats (tokens : List Nat) : List ((Nat × Nat) × Nat) :=
  get_stats_aux [] tokens

/-- The scan performed by Python's `max(stats, key=stats.get)`: keep the
current best entry, replacing it only when a strictly larger count appears. -/
def max_run : ((Nat × Nat) × Nat) → List ((Nat × Nat) × Nat) → (Nat × Nat) × Nat
  | best, [] => best
  | best, e :: t => max_run (if best.2 < e.2 then e else best) t

/-- `max(stats, key=stats.get)` over the insertion-ordered dict, returning the
first key that attains the maximal count (`none` on an empty dict; the source
guards this case with `if not stats: break`). -/
def max_pair : List ((Nat × Nat) × Nat) → Option ((Nat × Nat) × Nat)
  | [] => none
  | e :: t => some (max_run e t)

/-- `merge(ids, pair, idx)` from the source: one greedy left-to-right
non-overlapping replacement pass, emitting `idx` and advancing by two on a
match, otherwise emitting the current symbol and advancing by one. -/
def merge : List Nat → Nat × Nat → Nat → List Nat
  | a :: b :: t, pair, idx =>
      if a = pair.1 ∧ b = pair.2 then idx :: merge t pair idx
      else a :: merge (b :: t) pair idx
  | l, _, _ => l

/-- The initial vocabulary `{idx: bytes([idx]) for idx in range(256)}`. -/
def vocab0 : List (Nat × List Nat) :=
  (List.range 256).map (fun b => (b, [b]))

/-- The `for i in range(num_merges)` training loop of `encode`.  `fuel` is the
number of remaining iterations and `i` the Python loop variable.  The vocab
lookups `vocab[pair[0]]`, `vocab[pair[1]]` are total in Python only because
the keys are always present (proved below); missing keys default to `[]`. -/
def encode_loop : Nat → Nat → List Nat → List ((Nat × Nat) × Nat) → List (Nat × List Nat) →
    List Nat × List ((Nat × Nat) × Nat) × List (Nat × List Nat)
  | 0, _, ids, merges, vocab => (ids, merges, vocab)
  | fuel + 1, i, ids, merges, vocab =>
    match max_pair (get_stats ids) with
    | none => (ids, merges, vocab)
    | some e =>
      encode_loop fuel (i + 1) (merge ids e.1 (256 + i))
        (upsert merges e.1 (256 + i))
        (upsert vocab (256 + i) (alookupD vocab e.1.1 [] ++ alookupD vocab e.1.2 []))

/-- `encode(text, vocab_size)` from the source, over the UTF-8 bytes of the
input text.  `num_merges = vocab_size - 256 <= 0` (here: `vocab_size ≤ 256`)
returns the raw ids, no merges and the identity vocabulary. -/
def encode (text_bytes : List Nat) (vocab_size : Nat) :
    List Nat × List ((Nat × Nat) × Nat) × List (Nat × List Nat) :=
  if vocab_size ≤ 256 then (text_bytes, [], vocab0)
  else encode_loop (vocab_size - 256) 0 text_bytes [] vocab0

/-- The reverse map `{new_idx: pair for pair, new_idx in merges.items()}`. -/
def reverse_merges (merges : List ((Nat × Nat) × Nat)) : List (Nat × (Nat × Nat)) :=
  merges.foldl (fun d e => upsert d e.2 e.1) []

/-- The in-place splice of `decode`: `ids.pop(i)` followed by
`ids.insert(i, second)`; `ids.insert(i, first)`. -/
def replace_at (ids : List Nat) (i p q : Nat) : List Nat :=
  ids.take i ++ p :: q :: ids.drop (i + 1)

/-- The `while i < len(ids)` expansion loop of `decode`, with explicit fuel:
replace a symbol that has a reverse-map entry by its pair and step the cursor
back one position (`max(0, i-1)` is `Nat` subtraction), otherwise advance. -/
def decode_loop : Nat → Nat → List Nat → List (Nat × (Nat × Nat)) → Option (List Nat)
  | 0, _, _, _ => none
  | fuel + 1, i, ids, rm =>
    if h : i < ids.length then
      match alookup rm (ids.get ⟨i, h⟩) with
      | some pq => decode_loop fuel (i - 1) (replace_at ids i pq.1 pq.2) rm
      | none => decode_loop fuel (i + 1) ids rm
    else some ids

/-- Full expansion of a single symbol through the reverse merge map, used as
the specification of what `decode`'s cursor loop computes.  The guard
`pq.1 < s ∧ pq.2 < s` makes the recursion well-founded on the symbol value;
for every reverse map produced by training the guard always holds (each
merge's components are strictly below the freshly assigned id), so on those
maps this is exactly the transitive expansion down to base symbols. -/
def expand_sym (rm : List (Nat × (Nat × Nat))) (s : Nat) : List Nat :=
  match alookup rm s with
  | some pq =>
      if h : pq.1 < s ∧ pq.2 < s then expand_sym rm pq.1 ++ expand_sym rm pq.2
      else [s]
  | none => [s]
termination_by s
decreasing_by
  · exact h.1
  · exact h.2

/-- Size of the expansion tree of a symbol (same guarded recursion as
`expand_sym`); used only to compute sufficient fuel for `decode_loop`. -/
def nodes (rm : List (Nat × (Nat × Nat))) (s : Nat) : Nat :=
  match alookup rm s with
  | some pq =>
      if h : pq.1 < s ∧ pq.2 < s then nodes rm pq.1 + nodes rm pq.2 + 1
      else 1
  | none => 1
termination_by s
decreasing_by
  · exact h.1
  · exact h.2

/-- Total expansion-tree size of a symbol sequence. -/
def total_nodes (rm : List (Nat × (Nat × Nat))) (l : List Nat) : Nat :=
  (l.map (nodes rm)).sum

/-- Fuel sufficient for `decode_loop` to finish on `ids` under `rm`. -/
def decode_fuel (rm : List (Nat × (Nat × Nat))) (ids : List Nat) : Nat :=
  2 * total_nodes rm ids + 1

/-- Modelled from the library call `bytes(ids).decode("utf-8",
errors="replace")` used by `decode` (the codec itself is CPython's, not part
of the repository): standard UTF-8 decoding where every maximal malformed
subpart is replaced by one U+FFFD replacement character, producing the list
of Unicode scalar values of the resulting string. -/
def utf8_replace : List Nat → List Nat
  | [] => []
  | b :: rest =>
    if b < 0x80 then b :: utf8_replace rest
    else if 0xC2 ≤ b ∧ b ≤ 0xDF then
      match rest with
      | c2 :: r =>
          if 0x80 ≤ c2 ∧ c2 ≤ 0xBF then
            ((b - 0xC0) * 64 + (c2 - 0x80)) :: utf8_replace r
          else 0xFFFD :: utf8_replace (c2 :: r)
      | [] => [0xFFFD]
    else if 0xE0 ≤ b ∧ b ≤ 0xEF then
      match rest with
      | c2 :: r =>
          if (if b = 0xE0 then 0xA0 else 0x80) ≤ c2 ∧ c2 ≤ (if b = 0xED then 0x9F else 0xBF) then
            match r with
            | c3 :: r2 =>
                if 0x80 ≤ c3 ∧ c3 ≤ 0xBF then
                  ((b - 0xE0) * 4096 + (c2 - 0x80) * 64 + (c3 - 0x80)) :: utf8_replace r2
                else 0xFFFD :: utf8_replace (c3 :: r2)
            | [] => [0xFFFD]
          else 0xFFFD :: utf8_replace (c2 :: r)
      | [] => [0xFFFD]
    else if 0xF0 ≤ b ∧ b ≤ 0xF4 then
      match rest with
      | c2 :: r =>
          if (if b = 0xF0 then 0x90 else 0x80) ≤ c2 ∧ c2 ≤ (if b = 0xF4 then 0x8F else 0xBF) then
            match r with
            | c3 :: r2 =>
                if 0x80 ≤ c3 ∧ c3 ≤ 0xBF then
                  match r2 with
                  | c4 :: r3 =>
                      if 0x80 ≤ c4 ∧ c4 ≤ 0xBF then
                        ((b - 0xF0) * 262144 + (c2 - 0x80) * 4096 + (c3 - 0x80) * 64 + (c4 - 0x80)) ::
                          utf8_replace r3
                      else 0xFFFD :: utf8_replace (c4 :: r3)
                  | [] => [0xFFFD]
                else 0xFFFD :: utf8_replace (c3 :: r2)
            | [] => [0xFFFD]
          else 0xFFFD :: utf8_replace (c2 :: r)
      | [] => [0xFFFD]
    else 0xFFFD :: utf8_replace rest
termination_by l => l.length
decreasing_by all_goals (simp only [List.length_cons]; omega)

/-- `decode(encoded_tokens, merges)` from the source, with explicit fuel for
its `while` loop.  The result is the list of Unicode scalar values of the
returned Python string: on the normal path `bytes(ids)` succeeds (all ids
below 256) and the string is the replacement-policy UTF-8 decoding; when some
id is 256 or more, `bytes(ids)` raises, the `except` clause catches it and
the function returns the empty string `""` (here `some []`). -/
def decode (encoded_tokens : List Nat) (merges : List ((Nat × Nat) × Nat)) (fuel : Nat) :
    Option (List Nat) :=
  match decode_loop fuel 0 encoded_tokens (reverse_merges merges) with
  | none => none
  | some ids => if ids.all (fun s => s < 256) then some (utf8_replace ids) else some []

/-- A Unicode scalar value: below 0x110000 and not a surrogate.  Valid UTF-8
text is exactly a sequence of these. -/
def ValidScalar (c : Nat) : Prop :=
  c < 0x110000 ∧ (c < 0xD800 ∨ 0xDFFF < c)

instance (c : Nat) : Decidable (ValidScalar c) := by
  unfold ValidScalar; infer_instance

/-- Modelled from the library call `text.encode("utf-8")` used by `encode`
(CPython's codec, not part of the repository): the UTF-8 bytes of one Unicode
scalar value. -/
def utf8_encode_char (c : Nat) : List Nat :=
  if c < 0x80 then [c]
  else if c < 0x800 then [0xC0 + c / 64, 0x80 + c % 64]
  else if c < 0x10000 then [0xE0 + c / 4096, 0x80 + c / 64 % 64, 0x80 + c % 64]
  else [0xF0 + c / 262144, 0x80 + c / 4096 % 64, 0x80 + c / 64 % 64, 0x80 + c % 64]

/-- Modelled from `text.encode("utf-8")`: the UTF-8 bytes of a string given
as its list of Unicode scalar values. -/
def utf8_encode (cs : List Nat) : List Nat :=
  (cs.map utf8_encode_char).flatten

/-- Adjacent pairs of a list, `(seq[i], seq[i+1])` for `i` in `[0, n-2]`:
the specification-side counterpart of what `get_stats` counts. -/
def adj_pairs (l : List Nat) : List (Nat × Nat) :=
  l.zip l.tail

/-- Number of (possibly overlapping) adjacent occurrences of a pair. -/
def count_adj (tokens : List Nat) (p : Nat × Nat) : Nat :=
  (adj_pairs tokens).count p

/-! ### Association-list lemmas -/

theorem alookup_eq_none {α β : Type} [DecidableEq α] {l : List (α × β)} {k : α}
    (h : ∀ e ∈ l, e.1 ≠ k) : alookup l k = none := by
  induction l with
  | nil => rfl
  | cons e t ih =>
      obtain ⟨a, b⟩ := e
      simp only [alookup]
      rw [if_neg (h (a, b) (by simp))]
      exact ih fun e he => h e (by simp [he])

theorem alookup_mem {α β : Type} [DecidableEq α] {l : List (α × β)} {k : α} {v : β}
    (h : alookup l k = some v) : (k, v) ∈ l := by
  induction l with
  | nil => simp [alookup] at h
  | cons e t ih =>
      obtain ⟨a, b⟩ := e
      simp only [alookup] at h
      by_cases hak : a = k
      · rw [if_pos hak] at h
        cases h
        subst hak
        simp
      · rw [if_neg hak] at h
        exact List.mem_cons_of_mem _ (ih h)

theorem alookup_append_left {α β : Type} [DecidableEq α] {l₁ : List (α × β)}
    (l₂ : List (α × β)) {k : α} {v : β} (h : alookup l₁ k = some v) :
    alookup (l₁ ++ l₂) k = some v := by
  induction l₁ with
  | nil => simp [alookup] at h
  | cons e t ih =>
      obtain ⟨a, b⟩ := e
      simp only [alookup] at h ⊢
      by_cases hak : a = k
      · rw [if_pos hak] at h ⊢; exact h
      · rw [if_neg hak] at h ⊢; exact ih h

theorem alookup_append_right {α β : Type} [DecidableEq α] {l₁ : List (α × β)}
    (l₂ : List (α × β)) {k : α} (h : alookup l₁ k = none) :
    alookup (l₁ ++ l₂) k = alookup l₂ k := by
  induction l₁ with
  | nil => rfl
  | cons e t ih =>
      obtain ⟨a, b⟩ := e
      simp only [alookup] at h ⊢
      by_cases hak : a = k
      · rw [if_pos hak] at h; cases h
      · rw [if_neg hak] at h ⊢; exact ih h

theorem upsert_of_fresh {α β : Type} [DecidableEq α] {l : List (α × β)} {k : α} (v : β)
    (h : ∀ e ∈ l, e.1 ≠ k) : upsert l k v = l ++ [(k, v)] := by
  induction l with
  | nil => rfl
  | cons e t ih =>
      obtain ⟨a, b⟩ := e
      simp only [upsert]
      rw [if_neg (h (a, b) (by simp))]
      rw [ih fun e he => h e (by simp [he])]
      simp

/-! ### `bump` and `get_stats` lemmas -/

theorem alookup_bump_self (l : List ((Nat × Nat) × Nat)) (p : Nat × Nat) :
    alookup (bump l p) p = some (alookupD l p 0 + 1) := by
  induction l with
  | nil => simp [bump, alookup, alookupD]
  | cons e t ih =>
      obtain ⟨q, c⟩ := e
      by_cases hqp : q = p
      · subst hqp
        simp [bump, alookup, alookupD]
      · simp only [bump, if_neg hqp, alookup, alookupD]
        simpa [alookupD] using ih

theorem alookup_bump_ne (l : List ((Nat × Nat) × Nat)) (p q : Nat × Nat) (h : q ≠ p) :
    alookup (bump l p) q = alookup l q := by
  induction l with
  | nil =>
      simp only [bump, alookup]
      rw [if_neg fun hc => h hc.symm]
  | cons e t ih =>
      obtain ⟨r, c⟩ := e
      by_cases hrp : r = p
      · subst hrp
        simp only [bump, if_pos rfl, alookup]
        rw [if_neg fun hc => h hc.symm, if_neg fun hc => h hc.symm]
      · simp only [bump, if_neg hrp, alookup]
        by_cases hrq : r = q
        · rw [if_pos hrq, if_pos hrq]
        · rw [if_neg hrq, if_neg hrq]
          exact ih

theorem mem_bump {l : List ((Nat × Nat) × Nat)} {p : Nat × Nat}
    {e : (Nat × Nat) × Nat} (h : e ∈ bump l p) : (∃ c, (e.1, c) ∈ l) ∨ e.1 = p := by
  induction l with
  | nil =>
      simp [bump] at h
      simp [h]
  | cons f t ih =>
      obtain ⟨q, c⟩ := f
      simp only [bump] at h
      by_cases hqp : q = p
      · rw [if_pos hqp] at h
        rcases List.mem_cons.mp h with h1 | h1
        · right; rw [h1]; exact hqp
        · left
          refine ⟨e.2, List.mem_cons_of_mem _ ?_⟩
          simpa using h1
      · rw [if_neg hqp] at h
        rcases List.mem_cons.mp h with h1 | h1
        · left; exact ⟨c, by rw [h1]; simp⟩
        · rcases ih h1 with ⟨d, hd⟩ | h2
          · exact Or.inl ⟨d, List.mem_cons_of_mem _ hd⟩
          · exact Or.inr h2

/-! ### `adj_pairs` and `get_stats` -/

theorem adj_pairs_cons2 (a b : Nat) (t : List Nat) :
    adj_pairs (a :: b :: t) = (a, b) :: adj_pairs (b :: t) := rfl

theorem adj_pairs_subset_cons (a : Nat) (l : List Nat) :
    adj_pairs l ⊆ adj_pairs (a :: l) := by
  cases l with
  | nil => intro x hx; cases hx
  | cons b t => rw [adj_pairs_cons2]; exact List.subset_cons_self _ _

theorem mem_of_mem_adj_pairs {l : List Nat} {x y : Nat} (h : (x, y) ∈ adj_pairs l) :
    x ∈ l ∧ y ∈ l := by
  have h2 := List.of_mem_zip h
  exact ⟨h2.1, List.mem_of_mem_tail h2.2⟩

theorem get_stats_aux_count (l : List Nat) :
    ∀ (acc : List ((Nat × Nat) × Nat)) (p : Nat × Nat),
      alookupD (get_stats_aux acc l) p 0 = alookupD acc p 0 + count_adj l p := by
  induction l with
  | nil => intro acc p; simp [get_stats_aux, count_adj, adj_pairs]
  | cons a t ih =>
      intro acc p
      cases t with
      | nil => simp [get_stats_aux, count_adj, adj_pairs]
      | cons b t2 =>
          have hstep : get_stats_aux acc (a :: b :: t2) =
              get_stats_aux (bump acc (a, b)) (b :: t2) := rfl
          rw [hstep, ih (bump acc (a, b)) p]
          have hcount : count_adj (a :: b :: t2) p =
              count_adj (b :: t2) p + if (a, b) = p then 1 else 0 := by
            simp [count_adj, adj_pairs_cons2, List.count_cons]
          rw [hcount]
          by_cases hp : (a, b) = p
          · rw [if_pos hp, hp]
            simp only [alookupD, alookup_bump_self]
            simp [alookupD]
            omega
          · rw [if_neg hp]
            simp only [alookupD, alookup_bump_ne _ _ _ fun hc => hp hc.symm]
            omega

theorem get_stats_count (tokens : List Nat) (p : Nat × Nat) :
    alookupD (get_stats tokens) p 0 = count_adj tokens p := by
  simpa [alookupD, alookup] using get_stats_aux_count tokens [] p

theorem mem_get_stats_aux {l : List Nat} :
    ∀ {acc : List ((Nat × Nat) × Nat)} {e : (Nat × Nat) × Nat},
      e ∈ get_stats_aux acc l → (∃ c, (e.1, c) ∈ acc) ∨ e.1 ∈ adj_pairs l := by
  induction l with
  | nil => intro acc e h; exact Or.inl ⟨e.2, by simpa using h⟩
  | cons a t ih =>
      intro acc e h
      cases t with
      | nil => exact Or.inl ⟨e.2, by simpa using h⟩
      | cons b t2 =>
          have hstep : get_stats_aux acc (a :: b :: t2) =
              get_stats_aux (bump acc (a, b)) (b :: t2) := rfl
          rw [hstep] at h
          rcases ih h with ⟨c, hc⟩ | hadj
          · rcases mem_bump hc with ⟨c2, hc2⟩ | hkey
            · exact Or.inl ⟨c2, hc2⟩
            · right
              rw [adj_pairs_cons2]
              exact List.mem_cons.mpr (Or.inl hkey)
          · right; exact adj_pairs_subset_cons a _ hadj

theorem mem_get_stats {tokens : List Nat} {e : (Nat × Nat) × Nat}
    (h : e ∈ get_stats tokens) : e.1 ∈ adj_pairs tokens := by
  rcases mem_get_stats_aux h with ⟨c, hc⟩ | hadj
  · cases hc
  · exact hadj

theorem keys_bump_subset {l : List ((Nat × Nat) × Nat)} {p x : Nat × Nat}
    (h : x ∈ (bump l p).map Prod.fst) : x ∈ l.map Prod.fst ∨ x = p := by
  rcases List.mem_map.mp h with ⟨e, he, hex⟩
  rcases mem_bump he with ⟨c, hc⟩ | hkey
  · exact Or.inl (by rw [← hex]; exact List.mem_map.mpr ⟨(e.1, c), hc, rfl⟩)
  · exact Or.inr (hex ▸ hkey)

theorem nodup_keys_bump {l : List ((Nat × Nat) × Nat)} {p : Nat × Nat}
    (h : (l.map Prod.fst).Nodup) : ((bump l p).map Prod.fst).Nodup := by
  induction l with
  | nil => simp [bump]
  | cons e t ih =>
      obtain ⟨q, c⟩ := e
      by_cases hqp : q = p
      · subst hqp
        simpa [bump] using h
      · simp only [bump, if_neg hqp, List.map_cons, List.nodup_cons] at h ⊢
        refine ⟨fun hmem => ?_, ih h.2⟩
        rcases keys_bump_subset hmem with h2 | h2
        · exact h.1 h2
        · exact hqp h2

theorem nodup_keys_get_stats_aux (l : List Nat) :
    ∀ acc : List ((Nat × Nat) × Nat),
      (acc.map Prod.fst).Nodup → ((get_stats_aux acc l).map Prod.fst).Nodup := by
  induction l with
  | nil => intro acc h; exact h
  | cons a t ih =>
      intro acc h
      cases t with
      | nil => exact h
      | cons b t2 => exact ih (bump acc (a, b)) (nodup_keys_bump h)

theorem nodup_keys_get_stats (tokens : List Nat) :
    ((get_stats tokens).map Prod.fst).Nodup :=
  nodup_keys_get_stats_aux tokens [] (by simp)

theorem alookup_of_mem_nodup {α β : Type} [DecidableEq α] {l : List (α × β)}
    (h : (l.map Prod.fst).Nodup) {e : α × β} (he : e ∈ l) : alookup l e.1 = some e.2 := by
  induction l with
  | nil => cases he
  | cons f t ih =>
      simp only [List.map_cons, List.nodup_cons] at h
      rcases List.mem_cons.mp he with h1 | h1
      · obtain ⟨a, b⟩ := f
        rw [h1]
        simp [alookup]
      · obtain ⟨a, b⟩ := f
        have hne : ¬ a = e.1 := by
          intro hc
          apply h.1
          rw [hc]
          exact List.mem_map.mpr ⟨e, h1, rfl⟩
        simp only [alookup]
        rw [if_neg hne]
        exact ih h.2 h1

/-! ### `max_run` / `max_pair` -/

theorem max_run_mem (best : (Nat × Nat) × Nat) (l : List ((Nat × Nat) × Nat)) :
    max_run best l = best ∨ max_run best l ∈ l := by
  induction l generalizing best with
  | nil => exact Or.inl rfl
  | cons e t ih =>
      rcases ih (if best.2 < e.2 then e else best) with h | h
      · rw [show max_run best (e :: t) = max_run (if best.2 < e.2 then e else best) t from rfl]
        rw [h]
        by_cases hlt : best.2 < e.2
        · rw [if_pos hlt]; exact Or.inr (by simp)
        · rw [if_neg hlt]; exact Or.inl rfl
      · exact Or.inr (List.mem_cons_of_mem _ (by rw [show max_run best (e :: t) = max_run (if best.2 < e.2 then e else best) t from rfl]; exact h))

theorem max_run_ge (best : (Nat × Nat) × Nat) (l : List ((Nat × Nat) × Nat)) :
    best.2 ≤ (max_run best l).2 ∧ ∀ e ∈ l, e.2 ≤ (max_run best l).2 := by
  induction l generalizing best with
  | nil => exact ⟨Nat.le_refl _, by intro e he; cases he⟩
  | cons e t ih =>
      obtain ⟨h1, h2⟩ := ih (if best.2 < e.2 then e else best)
      rw [show max_run best (e :: t) = max_run (if best.2 < e.2 then e else best) t from rfl]
      constructor
      · refine Nat.le_trans ?_ h1
        by_cases hlt : best.2 < e.2
        · rw [if_pos hlt]; omega
        · rw [if_neg hlt]
      · intro f hf
        rcases List.mem_cons.mp hf with h3 | h3
        · rw [h3]
          refine Nat.le_trans ?_ h1
          by_cases hlt : best.2 < e.2
          · rw [if_pos hlt]
          · rw [if_neg hlt]; omega
        · exact h2 f h3

/-! ### `vocab0` lookup -/

theorem alookup_range_map_ge {β : Type} (f : Nat → β) :
    ∀ (n k : Nat), n ≤ k → alookup ((List.range n).map fun i => (i, f i)) k = none := by
  intro n
  induction n with
  | zero => intro k _; rfl
  | succ n ih =>
      intro k hk
      rw [List.range_succ, List.map_append]
      rw [alookup_append_right _ (ih k (by omega))]
      simp only [List.map_cons, List.map_nil, alookup]
      rw [if_neg (by omega)]

theorem alookup_range_map {β : Type} (f : Nat → β) :
    ∀ (n k : Nat), k < n → alookup ((List.range n).map fun i => (i, f i)) k = some (f k) := by
  intro n
  induction n with
  | zero => intro k hk; omega
  | succ n ih =>
      intro k hk
      rw [List.range_succ, List.map_append]
      by_cases hkn : k < n
      · exact alookup_append_left _ (ih k hkn)
      · have hkeq : k = n := by omega
        subst hkeq
        rw [alookup_append_right _ (alookup_range_map_ge f k k (Nat.le_refl _))]
        simp [alookup]

/-! ### `merge` structure lemmas -/

theorem merge_head {p : Nat × Nat} {idx : Nat} (a : Nat) (t : List Nat) :
    (merge (a :: t) p idx).head? = some a ∨ (merge (a :: t) p idx).head? = some idx := by
  cases t with
  | nil => exact Or.inl rfl
  | cons b t2 =>
      by_cases hm : a = p.1 ∧ b = p.2
      · rw [show merge (a :: b :: t2) p idx = idx :: merge t2 p idx from by simp [merge, hm]]
        exact Or.inr rfl
      · rw [show merge (a :: b :: t2) p idx = a :: merge (b :: t2) p idx from by
          simp [merge, hm]]
        exact Or.inl rfl

theorem mem_merge :
    ∀ (ids : List Nat) (p : Nat × Nat) (idx : Nat) (x : Nat),
      x ∈ merge ids p idx → x ∈ ids ∨ x = idx := by
  intro ids p idx
  induction ids, p, idx using merge.induct with
  | case1 a b t pair idx hm ih =>
      intro x h
      rw [show merge (a :: b :: t) pair idx = idx :: merge t pair idx from by
        simp [merge, hm]] at h
      rcases List.mem_cons.mp h with h1 | h1
      · exact Or.inr h1
      · rcases ih x h1 with h2 | h2
        · exact Or.inl (List.mem_cons_of_mem a (List.mem_cons_of_mem b h2))
        · exact Or.inr h2
  | case2 a b t pair idx hm ih =>
      intro x h
      rw [show merge (a :: b :: t) pair idx = a :: merge (b :: t) pair idx from by
        simp [merge, hm]] at h
      rcases List.mem_cons.mp h with h1 | h1
      · exact Or.inl (by rw [h1]; exact List.mem_cons_self _ _)
      · rcases ih x h1 with h2 | h2
        · exact Or.inl (List.mem_cons_of_mem a h2)
        · exact Or.inr h2
  | case3 l pair idx hnil =>
      intro x h
      have hl : merge l pair idx = l := by
        cases l with
        | nil => rfl
        | cons a t =>
            cases t with
            | nil => rfl
            | cons b t2 => exact (hnil a b t2 rfl).elim
      exact Or.inl (hl ▸ h)

/-- Adjacent pairs surviving a merge pass that do not involve the fresh
symbol `idx` were already adjacent before the pass and are not the merged
pair itself.  (With `idx` fresh this shows a merged pair can never become
adjacent again, and that no new old-symbol adjacencies are created.) -/
theorem adj_pairs_merge :
    ∀ (ids : List Nat) (p : Nat × Nat) (idx : Nat) (x y : Nat),
      (x, y) ∈ adj_pairs (merge ids p idx) →
      x ≠ idx → y ≠ idx → (x, y) ∈ adj_pairs ids ∧ (x, y) ≠ p := by
  intro ids p idx
  induction ids, p, idx using merge.induct with
  | case1 a b t pair idx hm ih =>
      intro x y h hx hy
      rw [show merge (a :: b :: t) pair idx = idx :: merge t pair idx from by
        simp [merge, hm]] at h
      cases hM : merge t pair idx with
      | nil => rw [hM] at h; cases h
      | cons m0 M =>
          rw [hM, adj_pairs_cons2] at h
          rcases List.mem_cons.mp h with h1 | h1
          · exact absurd (congrArg Prod.fst h1) hx
          · have h2 := ih x y (by rw [hM]; exact h1) hx hy
            exact ⟨adj_pairs_subset_cons a _ (adj_pairs_subset_cons b _ h2.1), h2.2⟩
  | case2 a b t pair idx hm ih =>
      intro x y h hx hy
      rw [show merge (a :: b :: t) pair idx = a :: merge (b :: t) pair idx from by
        simp [merge, hm]] at h
      cases hM : merge (b :: t) pair idx with
      | nil => rw [hM] at h; cases h
      | cons m0 M =>
          rw [hM, adj_pairs_cons2] at h
          rcases List.mem_cons.mp h with h1 | h1
          · rcases @merge_head pair idx b t with hh | hh
            · rw [hM] at hh
              have hm0 : m0 = b := by simpa using hh
              have hxa : x = a := congrArg Prod.fst h1
              have hyb : y = b := by
                have h3 := congrArg Prod.snd h1
                simpa [hm0] using h3
              subst hxa
              subst hyb
              refine ⟨by rw [adj_pairs_cons2]; exact List.mem_cons_self _ _, ?_⟩
              intro hc
              exact hm ⟨congrArg Prod.fst hc, congrArg Prod.snd hc⟩
            · rw [hM] at hh
              have hm0 : m0 = idx := by simpa using hh
              refine absurd ?_ hy
              have h3 := congrArg Prod.snd h1
              simpa [hm0] using h3
          · have h2 := ih x y (by rw [hM]; exact h1) hx hy
            exact ⟨adj_pairs_subset_cons a _ h2.1, h2.2⟩
  | case3 l pair idx hnil =>
      intro x y h hx hy
      have hl : merge l pair idx = l := by
        cases l with
        | nil => rfl
        | cons a t =>
            cases t with
            | nil => rfl
            | cons b t2 => exact (hnil a b t2 rfl).elim
      rw [hl] at h
      cases l with
      | nil => cases h
      | cons a t =>
          cases t with
          | nil => cases h
          | cons b t2 => exact (hnil a b t2 rfl).elim

/-! ### Claim theorems: C3, C4, C5, C8 -/

/-- C3: at every training iteration the selected pair (the result of
`max(stats, key=stats.get)` on the freshly computed `get_stats` mapping) has
a count that is at least the count of every other pair in that mapping, and
that count is exactly the selected pair's entry in the mapping. -/
theorem selected_pair_count_max (ids : List Nat) (pair : Nat × Nat) (c : Nat)
    (h : max_pair (get_stats ids) = some (pair, c)) :
    alookup (get_stats ids) pair = some c ∧ ∀ e ∈ get_stats ids, e.2 ≤ c := by
  have hnodup := nodup_keys_get_stats ids
  revert h hnodup
  cases hstats : get_stats ids with
  | nil => intro h _; cases h
  | cons e0 t =>
      intro h hnodup
      simp only [max_pair, Option.some.injEq] at h
      have hmem : (pair, c) ∈ e0 :: t := by
        rcases max_run_mem e0 t with h1 | h1
        · rw [h] at h1
          rw [← h1]
          exact List.mem_cons_self _ _
        · rw [h] at h1
          exact List.mem_cons_of_mem _ h1
      refine ⟨alookup_of_mem_nodup hnodup hmem, ?_⟩
      intro e he
      obtain ⟨h1, h2⟩ := max_run_ge e0 t
      rw [h] at h1 h2
      rcases List.mem_cons.mp he with h3 | h3
      · rw [h3]
        exact h1
      · exact h2 e h3

/-- C3 witness: on `[97, 97, 97, 98]` the selected pair is `(97, 97)` with
count 2, which bounds every count in the mapping. -/
theorem selected_pair_count_max_witness :
    alookup (get_stats [97, 97, 97, 98]) (97, 97) = some 2 ∧
      ∀ e ∈ get_stats [97, 97, 97, 98], e.2 ≤ 2 :=
  selected_pair_count_max [97, 97, 97, 98] (97, 97) 2 (by decide)

/-- C4: `merge` is a single greedy left-to-right non-overlapping replacement
pass; on a run of `k` identical symbols `X` with pair `(X, X)` it produces
`⌊k/2⌋` copies of the new id plus one leftover `X` exactly when `k` is odd
(not `k - 1` merges). -/
theorem merge_replicate (k X idx : Nat) :
    merge (List.replicate k X) (X, X) idx =
      List.replicate (k / 2) idx ++ if k % 2 = 1 then [X] else [] := by
  induction k using Nat.strong_induction_on with
  | _ k ih =>
    match k with
    | 0 => simp [merge]
    | 1 => simp [merge, List.replicate]
    | (m + 2) =>
        rw [show List.replicate (m + 2) X = X :: X :: List.replicate m X from rfl]
        rw [show merge (X :: X :: List.replicate m X) (X, X) idx =
            idx :: merge (List.replicate m X) (X, X) idx from by simp [merge]]
        rw [ih m (by omega)]
        have h1 : (m + 2) / 2 = m / 2 + 1 := by omega
        have h2 : (m + 2) % 2 = m % 2 := by omega
        rw [h1, h2]
        rfl

/-- C5: with a target vocabulary size of at most 256 the training performs
zero merges: it returns the raw byte sequence unchanged, an empty rule set,
and the 256-entry identity vocabulary mapping each byte `b` to `[b]`. -/
theorem encode_degenerate (bs : List Nat) (V : Nat) (h : V ≤ 256) :
    encode bs V = (bs, [], vocab0) ∧ vocab0.length = 256 ∧
      ∀ b, b < 256 → alookup vocab0 b = some [b] := by
  refine ⟨by simp [encode, h], by simp [vocab0], fun b hb => ?_⟩
  exact alookup_range_map (fun i => [i]) 256 b hb

/-- C5 witness: `encode "hello" 100` (bytes `[104, 101, 108, 108, 111]`)
returns the raw ids, no merge rules and the identity vocabulary. -/
theorem encode_degenerate_witness :
    encode [104, 101, 108, 108, 111] 100 = ([104, 101, 108, 108, 111], [], vocab0) ∧
      vocab0.length = 256 ∧ ∀ b, b < 256 → alookup vocab0 b = some [b] :=
  encode_degenerate [104, 101, 108, 108, 111] 100 (by omega)

/-- C8: `get_stats` counts every adjacent pair `(seq[i], seq[i+1])`,
overlapping occurrences included (a run `[A, A, A]` yields count 2 for
`(A, A)`), and returns the empty mapping on inputs of length below 2. -/
theorem get_stats_spec :
    (∀ (tokens : List Nat) (p : Nat × Nat),
        alookupD (get_stats tokens) p 0 = count_adj tokens p) ∧
      get_stats [] = [] ∧ (∀ a : Nat, get_stats [a] = []) ∧
      ∀ A : Nat, alookupD (get_stats [A, A, A]) (A, A) 0 = 2 := by
  refine ⟨get_stats_count, rfl, fun a => rfl, fun A => ?_⟩
  rw [get_stats_count]
  simp [count_adj, adj_pairs, List.count_cons]

/-! ### Shape of the rule table and its reverse map -/

/-- The merge rule table assigns the new ids 256, 257, … contiguously in
creation order. -/
def IdxKeyed (m : List ((Nat × Nat) × Nat)) : Prop :=
  m.map Prod.snd = List.range' 256 m.length

/-- Every merge rule's pair components are below the assigned new id. -/
def MergesAcyc (m : List ((Nat × Nat) × Nat)) : Prop :=
  ∀ e ∈ m, e.1.1 < e.2 ∧ e.1.2 < e.2

/-- Every reverse-map entry's components are below its key. -/
def Acyc (rm : List (Nat × (Nat × Nat))) : Prop :=
  ∀ e ∈ rm, e.2.1 < e.1 ∧ e.2.2 < e.1

theorem idx_bound_of_mem {m : List ((Nat × Nat) × Nat)} (hk : IdxKeyed m)
    {e : (Nat × Nat) × Nat} (he : e ∈ m) : 256 ≤ e.2 ∧ e.2 < 256 + m.length := by
  have h1 : e.2 ∈ m.map Prod.snd := List.mem_map.mpr ⟨e, he, rfl⟩
  rw [hk] at h1
  rcases List.mem_range'.mp h1 with ⟨i, hi, hei⟩
  omega

theorem idx_keyed_append {m : List ((Nat × Nat) × Nat)} {e : (Nat × Nat) × Nat}
    (hk : IdxKeyed (m ++ [e])) : IdxKeyed m ∧ e.2 = 256 + m.length := by
  unfold IdxKeyed at hk
  rw [List.map_append, List.length_append] at hk
  rw [show m.length + [e].length = m.length + 1 from by simp] at hk
  rw [List.range'_concat] at hk
  have hlen : (m.map Prod.snd).length = (List.range' 256 m.length).length := by
    simp
  obtain ⟨h1, h2⟩ := List.append_inj hk hlen
  refine ⟨h1, ?_⟩
  have := List.cons.injEq (e.2) [] (256 + 1 * m.length) [] ▸ h2
  simp at h2
  omega

theorem reverse_merges_append (m : List ((Nat × Nat) × Nat)) (e : (Nat × Nat) × Nat) :
    reverse_merges (m ++ [e]) = upsert (reverse_merges m) e.2 e.1 := by
  unfold reverse_merges
  rw [List.foldl_append]
  rfl

theorem reverse_merges_eq_swap {m : List ((Nat × Nat) × Nat)} (hk : IdxKeyed m) :
    reverse_merges m = m.map (fun e => (e.2, e.1)) := by
  induction m using List.reverseRecOn with
  | nil => rfl
  | append_singleton m e ih =>
      obtain ⟨hk1, hk2⟩ := idx_keyed_append hk
      rw [reverse_merges_append, ih hk1]
      rw [upsert_of_fresh _ ?_]
      · simp
      · intro f hf
        rcases List.mem_map.mp hf with ⟨g, hg, hgf⟩
        have := idx_bound_of_mem hk1 hg
        rw [← hgf]
        simp only []
        omega

theorem nodup_keys_reverse {m : List ((Nat × Nat) × Nat)} (hk : IdxKeyed m) :
    ((reverse_merges m).map Prod.fst).Nodup := by
  rw [reverse_merges_eq_swap hk]
  rw [List.map_map]
  have : (Prod.fst ∘ fun e : (Nat × Nat) × Nat => (e.2, e.1)) = Prod.snd := rfl
  rw [this, hk]
  exact List.nodup_range' 256 m.length

theorem alookup_reverse_of_mem {m : List ((Nat × Nat) × Nat)} (hk : IdxKeyed m)
    {e : (Nat × Nat) × Nat} (he : e ∈ m) :
    alookup (reverse_merges m) e.2 = some e.1 := by
  have hmem : (e.2, e.1) ∈ reverse_merges m := by
    rw [reverse_merges_eq_swap hk]
    exact List.mem_map.mpr ⟨e, he, rfl⟩
  exact alookup_of_mem_nodup (nodup_keys_reverse hk) hmem

theorem alookup_reverse_lo {m : List ((Nat × Nat) × Nat)} (hk : IdxKeyed m)
    {s : Nat} (hs : s < 256) : alookup (reverse_merges m) s = none := by
  refine alookup_eq_none fun f hf => ?_
  rw [reverse_merges_eq_swap hk] at hf
  rcases List.mem_map.mp hf with ⟨g, hg, hgf⟩
  have := idx_bound_of_mem hk hg
  rw [← hgf]
  simp only []
  omega

theorem acyc_reverse {m : List ((Nat × Nat) × Nat)} (hk : IdxKeyed m)
    (ha : MergesAcyc m) : Acyc (reverse_merges m) := by
  intro f hf
  rw [reverse_merges_eq_swap hk] at hf
  rcases List.mem_map.mp hf with ⟨g, hg, hgf⟩
  have := ha g hg
  rw [← hgf]
  exact this

/-! ### `expand_sym` and `nodes` unfolding -/

theorem expand_sym_leaf {rm : List (Nat × (Nat × Nat))} {s : Nat}
    (h : alookup rm s = none) : expand_sym rm s = [s] := by
  rw [expand_sym, h]

theorem expand_sym_node {rm : List (Nat × (Nat × Nat))} {s : Nat} {pq : Nat × Nat}
    (h : alookup rm s = some pq) (h1 : pq.1 < s) (h2 : pq.2 < s) :
    expand_sym rm s = expand_sym rm pq.1 ++ expand_sym rm pq.2 := by
  rw [expand_sym, h]
  exact dif_pos ⟨h1, h2⟩

theorem expand_sym_stuck {rm : List (Nat × (Nat × Nat))} {s : Nat} {pq : Nat × Nat}
    (h : alookup rm s = some pq) (hg : ¬(pq.1 < s ∧ pq.2 < s)) :
    expand_sym rm s = [s] := by
  rw [expand_sym, h]
  exact dif_neg hg

theorem nodes_leaf {rm : List (Nat × (Nat × Nat))} {s : Nat}
    (h : alookup rm s = none) : nodes rm s = 1 := by
  rw [nodes, h]

theorem nodes_node {rm : List (Nat × (Nat × Nat))} {s : Nat} {pq : Nat × Nat}
    (h : alookup rm s = some pq) (h1 : pq.1 < s) (h2 : pq.2 < s) :
    nodes rm s = nodes rm pq.1 + nodes rm pq.2 + 1 := by
  rw [nodes, h]
  exact dif_pos ⟨h1, h2⟩

theorem nodes_pos (rm : List (Nat × (Nat × Nat))) (s : Nat) : 1 ≤ nodes rm s := by
  rw [nodes]
  cases alookup rm s with
  | none => simp
  | some pq =>
      by_cases hg : pq.1 < s ∧ pq.2 < s
      · rw [show (match some pq with
          | some pq => if h : pq.1 < s ∧ pq.2 < s then nodes rm pq.1 + nodes rm pq.2 + 1 else 1
          | none => 1) = nodes rm pq.1 + nodes rm pq.2 + 1 from dif_pos hg]
        omega
      · rw [show (match some pq with
          | some pq => if h : pq.1 < s ∧ pq.2 < s then nodes rm pq.1 + nodes rm pq.2 + 1 else 1
          | none => 1) = 1 from dif_neg hg]

theorem guard_of_acyc {rm : List (Nat × (Nat × Nat))} (ha : Acyc rm) {s : Nat}
    {pq : Nat × Nat} (h : alookup rm s = some pq) : pq.1 < s ∧ pq.2 < s :=
  ha (s, pq) (alookup_mem h)

theorem alookup_extend {α β : Type} [DecidableEq α] {rm : List (α × β)} {new : α}
    {pr : β} {s : α} (hs : s ≠ new) :
    alookup (rm ++ [(new, pr)]) s = alookup rm s := by
  cases hl : alookup rm s with
  | some pq => exact alookup_append_left _ hl
  | none =>
      rw [alookup_append_right _ hl]
      simp only [alookup]
      rw [if_neg fun hc => hs hc.symm]

/-- Appending a rule for a fresh, larger id does not change the expansion of
any smaller symbol. -/
theorem expand_sym_extend (rm : List (Nat × (Nat × Nat))) (new : Nat) (pr : Nat × Nat) :
    ∀ s, s < new → expand_sym (rm ++ [(new, pr)]) s = expand_sym rm s := by
  intro s
  induction s using Nat.strong_induction_on with
  | _ s ih =>
    intro hs
    have hlook : alookup (rm ++ [(new, pr)]) s = alookup rm s :=
      alookup_extend (by omega)
    cases hl : alookup rm s with
    | none => rw [expand_sym_leaf (by rw [hlook, hl]), expand_sym_leaf hl]
    | some pq =>
        by_cases hg : pq.1 < s ∧ pq.2 < s
        · rw [expand_sym_node (by rw [hlook]; exact hl) hg.1 hg.2,
            expand_sym_node hl hg.1 hg.2]
          rw [ih pq.1 hg.1 (by omega), ih pq.2 hg.2 (by omega)]
        · rw [expand_sym_stuck (by rw [hlook]; exact hl) hg, expand_sym_stuck hl hg]

/-! ### `decode_loop` computes the full expansion -/

theorem decode_loop_succ (f i : Nat) (ids : List Nat) (rm : List (Nat × (Nat × Nat))) :
    decode_loop (f + 1) i ids rm =
      if h : i < ids.length then
        match alookup rm (ids.get ⟨i, h⟩) with
        | some pq => decode_loop f (i - 1) (replace_at ids i pq.1 pq.2) rm
        | none => decode_loop f (i + 1) ids rm
      else some ids := rfl

theorem get_append_mid (pre : List Nat) (s : Nat) (rest : List Nat)
    (h : pre.length < (pre ++ s :: rest).length) :
    (pre ++ s :: rest).get ⟨pre.length, h⟩ = s := by
  induction pre with
  | nil => rfl
  | cons a pre ih => simpa using ih (by simpa using Nat.lt_of_succ_lt_succ h)

theorem replace_at_append (pre : List Nat) (s : Nat) (rest : List Nat) (p q : Nat) :
    replace_at (pre ++ s :: rest) pre.length p q = pre ++ p :: q :: rest := by
  unfold replace_at
  rw [List.take_left]
  rw [show pre ++ s :: rest = (pre ++ [s]) ++ rest from by simp]
  rw [List.drop_left' (by simp)]

theorem total_nodes_cons (rm : List (Nat × (Nat × Nat))) (s : Nat) (l : List Nat) :
    total_nodes rm (s :: l) = nodes rm s + total_nodes rm l := by
  simp [total_nodes]

/-- The cursor loop of `decode`, run on `pre ++ suf` with the cursor at the
start of `suf`, where `pre` consists of fully expanded symbols, terminates
and produces `pre` followed by the full expansion of every symbol of `suf`,
provided the reverse map is acyclic and the fuel is at least
`2 * total_nodes rm suf + pre.length + 1`. -/
theorem decode_loop_expands {rm : List (Nat × (Nat × Nat))} (hacyc : Acyc rm) :
    ∀ (n : Nat) (suf pre : List Nat) (fuel : Nat),
      total_nodes rm suf ≤ n →
      (∀ x ∈ pre, alookup rm x = none) →
      2 * total_nodes rm suf + pre.length + 1 ≤ fuel →
      decode_loop fuel pre.length (pre ++ suf) rm =
        some (pre ++ (suf.map (expand_sym rm)).flatten) := by
  intro n
  induction n using Nat.strong_induction_on with
  | _ n ih =>
    intro suf pre fuel hn hpre hfuel
    obtain ⟨f, rfl⟩ : ∃ f, fuel = f + 1 := ⟨fuel - 1, by omega⟩
    match suf with
    | [] =>
        rw [decode_loop_succ]
        rw [dif_neg (by simp)]
        simp
    | s :: rest =>
        have hsplit : total_nodes rm (s :: rest) = nodes rm s + total_nodes rm rest :=
          total_nodes_cons rm s rest
        have hnodes1 := nodes_pos rm s
        rw [decode_loop_succ]
        have hlen : pre.length < (pre ++ s :: rest).length := by simp
        rw [dif_pos hlen]
        rw [get_append_mid pre s rest hlen]
        cases hl : alookup rm s with
        | none =>
            have hstep : decode_loop f (pre.length + 1) (pre ++ s :: rest) rm =
                decode_loop f (pre ++ [s]).length ((pre ++ [s]) ++ rest) rm := by
              simp
            rw [hstep]
            rw [ih (total_nodes rm rest) (by omega) rest (pre ++ [s]) f (Nat.le_refl _)
              (by
                intro x hx
                rcases List.mem_append.mp hx with h1 | h1
                · exact hpre x h1
                · rw [show x = s from by simpa using h1]
                  exact hl)
              (by simp; omega)]
            rw [show (s :: rest).map (expand_sym rm) = [s] :: rest.map (expand_sym rm) from by
              rw [List.map_cons, expand_sym_leaf hl]]
            simp
        | some pq =>
            obtain ⟨hg1, hg2⟩ := guard_of_acyc hacyc hl
            have hnodes : nodes rm s = nodes rm pq.1 + nodes rm pq.2 + 1 :=
              nodes_node hl hg1 hg2
            have hexp : expand_sym rm s = expand_sym rm pq.1 ++ expand_sym rm pq.2 :=
              expand_sym_node hl hg1 hg2
            show decode_loop f (pre.length - 1)
                (replace_at (pre ++ s :: rest) pre.length pq.1 pq.2) rm =
              some (pre ++ ((s :: rest).map (expand_sym rm)).flatten)
            rw [replace_at_append]
            have htail : total_nodes rm (pq.1 :: pq.2 :: rest) =
                nodes rm s - 1 + total_nodes rm rest := by
              rw [total_nodes_cons, total_nodes_cons]
              omega
            have hout : (pre ++ ((pq.1 :: pq.2 :: rest).map (expand_sym rm)).flatten) =
                pre ++ ((s :: rest).map (expand_sym rm)).flatten := by
              simp only [List.map_cons, List.flatten_cons, hexp]
              simp [List.append_assoc]
            rcases List.eq_nil_or_concat pre with rfl | ⟨pre0, x, hcat⟩
            · have hrec := ih (total_nodes rm (pq.1 :: pq.2 :: rest)) (by omega)
                (pq.1 :: pq.2 :: rest) [] f (Nat.le_refl _) (by intro x hx; cases hx)
                (by simp only [List.length_nil] at hfuel ⊢; omega)
              exact hout ▸ hrec
            · have hcat2 : pre = pre0 ++ [x] := by simpa [List.concat_eq_append] using hcat
              subst hcat2
              have hi1 : (pre0 ++ [x]).length - 1 = pre0.length := by simp
              rw [hi1]
              rw [show (pre0 ++ [x]) ++ pq.1 :: pq.2 :: rest =
                  pre0 ++ x :: pq.1 :: pq.2 :: rest from by simp]
              obtain ⟨f2, rfl⟩ : ∃ f2, f = f2 + 1 := by
                refine ⟨f - 1, ?_⟩
                simp only [List.length_append, List.length_cons, List.length_nil] at hfuel
                omega
              rw [decode_loop_succ]
              have hlen2 : pre0.length < (pre0 ++ x :: pq.1 :: pq.2 :: rest).length := by
                simp
              rw [dif_pos hlen2]
              rw [get_append_mid pre0 x _ hlen2]
              have hxleaf : alookup rm x = none := hpre x (by simp)
              rw [hxleaf]
              have hstep : decode_loop f2 (pre0.length + 1)
                  (pre0 ++ x :: pq.1 :: pq.2 :: rest) rm =
                  decode_loop f2 (pre0 ++ [x]).length
                    ((pre0 ++ [x]) ++ pq.1 :: pq.2 :: rest) rm := by
                simp
              rw [hstep]
              rw [ih (total_nodes rm (pq.1 :: pq.2 :: rest)) (by omega)
                (pq.1 :: pq.2 :: rest) (pre0 ++ [x]) f2 (Nat.le_refl _) hpre
                (by
                  simp only [List.length_append, List.length_cons, List.length_nil] at hfuel ⊢
                  omega)]
              rw [hout]

/-- Symbols with no reverse-map entry are never removed by the cursor loop. -/
theorem decode_loop_mem {rm : List (Nat × (Nat × Nat))} :
    ∀ (fuel i : Nat) (ids out : List Nat) (s : Nat),
      decode_loop fuel i ids rm = some out → s ∈ ids → alookup rm s = none →
      s ∈ out := by
  intro fuel
  induction fuel with
  | zero => intro i ids out s h; cases h
  | succ f ih =>
      intro i ids out s h hmem hleaf
      rw [decode_loop_succ] at h
      by_cases hi : i < ids.length
      · rw [dif_pos hi] at h
        cases hl : alookup rm (ids.get ⟨i, hi⟩) with
        | none =>
            rw [hl] at h
            exact ih _ _ _ _ h hmem hleaf
        | some pq =>
            rw [hl] at h
            refine ih _ _ _ _ h ?_ hleaf
            have hne : ids.get ⟨i, hi⟩ ≠ s := by
              intro hc
              rw [hc, hleaf] at hl
              cases hl
            have hsplit : ids = ids.take i ++ ids.get ⟨i, hi⟩ :: ids.drop (i + 1) := by
              conv_lhs => rw [← List.take_append_drop i ids]
              rw [List.drop_eq_get_cons hi]
            rw [hsplit] at hmem
            unfold replace_at
            rcases List.mem_append.mp hmem with h1 | h1
            · exact List.mem_append.mpr (Or.inl h1)
            · rcases List.mem_cons.mp h1 with h2 | h2
              · exact absurd h2.symm hne
              · refine List.mem_append.mpr (Or.inr ?_)
                exact List.mem_cons_of_mem _ (List.mem_cons_of_mem _ h2)
      · rw [dif_neg hi] at h
        have : ids = out := by
          injection h
        rw [← this]
        exact hmem

/-! ### The training invariant -/

theorem max_pair_mem {l : List ((Nat × Nat) × Nat)} {e : (Nat × Nat) × Nat}
    (h : max_pair l = some e) : e ∈ l := by
  cases l with
  | nil => cases h
  | cons e0 t =>
      simp only [max_pair, Option.some.injEq] at h
      rcases max_run_mem e0 t with h1 | h1
      · rw [h] at h1
        rw [← h1]
        exact List.mem_cons_self _ _
      · rw [h] at h1
        exact List.mem_cons_of_mem _ h1

theorem flatten_map_singleton (l : List Nat) :
    (l.map fun s => [s]).flatten = l := by
  induction l with
  | nil => rfl
  | cons a t ih => simp [ih]

/-- Rewriting a pair into a fresh symbol whose expansion is the expansions of
the pair's parts leaves the total expansion unchanged. -/
theorem flatten_map_merge (E : Nat → List Nat) :
    ∀ (ids : List Nat) (p : Nat × Nat) (idx : Nat), E idx = E p.1 ++ E p.2 →
      ((merge ids p idx).map E).flatten = (ids.map E).flatten := by
  intro ids p idx
  induction ids, p, idx using merge.induct with
  | case1 a b t pair idx hm ih =>
      intro hE
      rw [show merge (a :: b :: t) pair idx = idx :: merge t pair idx from by
        simp [merge, hm]]
      simp only [List.map_cons, List.flatten_cons]
      rw [ih hE, hE, hm.1, hm.2]
      simp [List.append_assoc]
  | case2 a b t pair idx hm ih =>
      intro hE
      rw [show merge (a :: b :: t) pair idx = a :: merge (b :: t) pair idx from by
        simp [merge, hm]]
      simp only [List.map_cons, List.flatten_cons]
      rw [ih hE]
      simp
  | case3 l pair idx hnil =>
      intro hE
      cases l with
      | nil => rfl
      | cons a t =>
          cases t with
          | nil => rfl
          | cons b t2 => exact (hnil a b t2 rfl).elim

/-- The invariant carried through the training loop: `bs` is the original
byte sequence, and `ids`, `merges`, `vocab` the current loop state.  The id
bound, rule-table shape, acyclicity, non-recurrence of already merged pairs,
vocabulary shape and correctness, and preservation of the total expansion
are exactly what the claim theorems need at loop exit. -/
structure EncInv (bs ids : List Nat) (merges : List ((Nat × Nat) × Nat))
    (vocab : List (Nat × List Nat)) : Prop where
  ids_lt : ∀ s ∈ ids, s < 256 + merges.length
  keyed : IdxKeyed merges
  acyc : MergesAcyc merges
  no_adj : ∀ e ∈ merges, e.1 ∉ adj_pairs ids
  vkeys : vocab.map Prod.fst = List.range (256 + merges.length)
  vexp : ∀ k, k < 256 + merges.length →
    alookupD vocab k [] = expand_sym (reverse_merges merges) k
  exp_eq : ((ids.map (expand_sym (reverse_merges merges))).flatten) = bs

theorem encode_loop_succ (f i : Nat) (ids : List Nat)
    (merges : List ((Nat × Nat) × Nat)) (vocab : List (Nat × List Nat)) :
    encode_loop (f + 1) i ids merges vocab =
      match max_pair (get_stats ids) with
      | none => (ids, merges, vocab)
      | some e =>
          encode_loop f (i + 1) (merge ids e.1 (256 + i))
            (upsert merges e.1 (256 + i))
            (upsert vocab (256 + i)
              (alookupD vocab e.1.1 [] ++ alookupD vocab e.1.2 [])) := rfl

theorem enc_inv_init (bs : List Nat) (h : ∀ b ∈ bs, b < 256) :
    EncInv bs bs [] vocab0 := by
  refine ⟨?_, rfl, ?_, ?_, ?_, ?_, ?_⟩
  · intro s hs
    simpa using h s hs
  · intro e he; cases he
  · intro e he; cases he
  · rw [vocab0, List.map_map]
    have : (Prod.fst ∘ fun b : Nat => (b, ([b] : List Nat))) = id := rfl
    rw [this, List.map_id]
    rfl
  · intro k hk
    have h1 : alookupD vocab0 k [] = [k] := by
      rw [alookupD, vocab0]
      rw [alookup_range_map (fun i => [i]) 256 k (by simpa using hk)]
      rfl
    rw [h1, expand_sym_leaf (show alookup (reverse_merges []) k = none from rfl)]
  · have : ∀ s ∈ bs, expand_sym (reverse_merges []) s = [s] := by
      intro s _
      exact expand_sym_leaf (show alookup (reverse_merges []) s = none from rfl)
    rw [List.map_congr_left this, flatten_map_singleton]

/-- One training step preserves the invariant. -/
theorem enc_inv_step {bs ids : List Nat} {merges : List ((Nat × Nat) × Nat)}
    {vocab : List (Nat × List Nat)} {e : (Nat × Nat) × Nat}
    (hinv : EncInv bs ids merges vocab) (hmp : max_pair (get_stats ids) = some e) :
    upsert merges e.1 (256 + merges.length) = merges ++ [(e.1, 256 + merges.length)] ∧
    upsert vocab (256 + merges.length) (alookupD vocab e.1.1 [] ++ alookupD vocab e.1.2 []) =
      vocab ++ [(256 + merges.length, alookupD vocab e.1.1 [] ++ alookupD vocab e.1.2 [])] ∧
    EncInv bs (merge ids e.1 (256 + merges.length))
      (merges ++ [(e.1, 256 + merges.length)])
      (vocab ++ [(256 + merges.length, alookupD vocab e.1.1 [] ++ alookupD vocab e.1.2 [])]) := by
  have hadj : e.1 ∈ adj_pairs ids := mem_get_stats (max_pair_mem hmp)
  have hp12 : e.1.1 ∈ ids ∧ e.1.2 ∈ ids :=
    @mem_of_mem_adj_pairs ids e.1.1 e.1.2 hadj
  have hlt1 : e.1.1 < 256 + merges.length := hinv.ids_lt _ hp12.1
  have hlt2 : e.1.2 < 256 + merges.length := hinv.ids_lt _ hp12.2
  have hmfresh : ∀ f ∈ merges, f.1 ≠ e.1 := by
    intro f hf hc
    exact hinv.no_adj f hf (hc ▸ hadj)
  have hup : upsert merges e.1 (256 + merges.length) =
      merges ++ [(e.1, 256 + merges.length)] := upsert_of_fresh _ hmfresh
  have hvfresh : ∀ f ∈ vocab, f.1 ≠ 256 + merges.length := by
    intro f hf hc
    have : f.1 ∈ vocab.map Prod.fst := List.mem_map.mpr ⟨f, hf, rfl⟩
    rw [hinv.vkeys] at this
    have := List.mem_range.mp this
    omega
  have hvup : upsert vocab (256 + merges.length)
      (alookupD vocab e.1.1 [] ++ alookupD vocab e.1.2 []) =
      vocab ++ [(256 + merges.length, alookupD vocab e.1.1 [] ++ alookupD vocab e.1.2 [])] :=
    upsert_of_fresh _ hvfresh
  have hkeyed : IdxKeyed (merges ++ [(e.1, 256 + merges.length)]) := by
    unfold IdxKeyed
    rw [List.map_append, hinv.keyed, List.length_append]
    simp [List.range'_concat]
  have hmbound : ∀ f ∈ merges, f.2 < 256 + merges.length := by
    intro f hf
    exact (idx_bound_of_mem hinv.keyed hf).2
  have hrm : reverse_merges (merges ++ [(e.1, 256 + merges.length)]) =
      reverse_merges merges ++ [(256 + merges.length, e.1)] := by
    rw [reverse_merges_append]
    exact upsert_of_fresh _ (by
      intro f hf hc
      rw [reverse_merges_eq_swap hinv.keyed] at hf
      rcases List.mem_map.mp hf with ⟨g, hg, hgf⟩
      have := hmbound g hg
      rw [← hgf] at hc
      simp only [] at hc
      omega)
  have hrmlook : alookup (reverse_merges (merges ++ [(e.1, 256 + merges.length)]))
      (256 + merges.length) = some e.1 := by
    rw [hrm]
    rw [alookup_append_right]
    · simp [alookup]
    · refine alookup_eq_none fun f hf => ?_
      rw [reverse_merges_eq_swap hinv.keyed] at hf
      rcases List.mem_map.mp hf with ⟨g, hg, hgf⟩
      have := hmbound g hg
      rw [← hgf]
      simp only []
      omega
  have hEnew : expand_sym (reverse_merges (merges ++ [(e.1, 256 + merges.length)]))
      (256 + merges.length) =
      expand_sym (reverse_merges (merges ++ [(e.1, 256 + merges.length)])) e.1.1 ++
        expand_sym (reverse_merges (merges ++ [(e.1, 256 + merges.length)])) e.1.2 :=
    expand_sym_node hrmlook hlt1 hlt2
  have hEold : ∀ k, k < 256 + merges.length →
      expand_sym (reverse_merges (merges ++ [(e.1, 256 + merges.length)])) k =
        expand_sym (reverse_merges merges) k := by
    intro k hk
    rw [hrm]
    exact expand_sym_extend _ _ _ k hk
  refine ⟨hup, hvup, ?_, hkeyed, ?_, ?_, ?_, ?_, ?_⟩
  · -- ids_lt
    intro s hs
    rcases mem_merge _ _ _ s hs with h1 | h1
    · have := hinv.ids_lt s h1
      simp only [List.length_append, List.length_cons, List.length_nil]
      omega
    · simp only [List.length_append, List.length_cons, List.length_nil]
      omega
  · -- acyc
    intro f hf
    rcases List.mem_append.mp hf with h1 | h1
    · exact hinv.acyc f h1
    · rw [show f = (e.1, 256 + merges.length) from by simpa using h1]
      exact ⟨hlt1, hlt2⟩
  · -- no_adj
    intro f hf hmem
    have hf1 : f.1.1 < 256 + merges.length ∧ f.1.2 < 256 + merges.length := by
      rcases List.mem_append.mp hf with h1 | h1
      · have hb := hmbound f h1
        have ha := hinv.acyc f h1
        omega
      · rw [show f = (e.1, 256 + merges.length) from by simpa using h1]
        exact ⟨hlt1, hlt2⟩
    have hsurv := adj_pairs_merge ids e.1 (256 + merges.length) f.1.1 f.1.2
      (by exact hmem) (by omega) (by omega)
    rcases List.mem_append.mp hf with h1 | h1
    · exact hinv.no_adj f h1 hsurv.1
    · have hfe : f = (e.1, 256 + merges.length) := by simpa using h1
      exact hsurv.2 (by rw [hfe])
  · -- vkeys
    rw [List.map_append, hinv.vkeys]
    simp only [List.length_append, List.length_cons, List.length_nil, List.map_cons,
      List.map_nil]
    rw [show 256 + (merges.length + 1) = (256 + merges.length) + 1 from by omega]
    rw [List.range_succ]
  · -- vexp
    intro k hk
    simp only [List.length_append, List.length_cons, List.length_nil] at hk
    by_cases hknew : k = 256 + merges.length
    · subst hknew
      have hlook : alookupD
          (vocab ++ [(256 + merges.length, alookupD vocab e.1.1 [] ++ alookupD vocab e.1.2 [])])
          (256 + merges.length) [] =
          alookupD vocab e.1.1 [] ++ alookupD vocab e.1.2 [] := by
        rw [alookupD, alookup_append_right]
        · simp [alookup]
        · exact alookup_eq_none hvfresh
      rw [hlook, hEnew]
      rw [hEold e.1.1 hlt1, hEold e.1.2 hlt2]
      rw [hinv.vexp e.1.1 hlt1, hinv.vexp e.1.2 hlt2]
    · have hksmall : k < 256 + merges.length := by omega
      have hlook : alookupD
          (vocab ++ [(256 + merges.length, alookupD vocab e.1.1 [] ++ alookupD vocab e.1.2 [])])
          k [] = alookupD vocab k [] := by
        rw [alookupD, alookup_extend hknew, alookupD]
      rw [hlook, hEold k hksmall, hinv.vexp k hksmall]
  · -- exp_eq
    rw [flatten_map_merge _ _ _ _ hEnew]
    have hcongr : ids.map (expand_sym (reverse_merges (merges ++ [(e.1, 256 + merges.length)]))) =
        ids.map (expand_sym (reverse_merges merges)) :=
      List.map_congr_left fun s hs => hEold s (hinv.ids_lt s hs)
    rw [hcongr, hinv.exp_eq]

/-- The training loop preserves the invariant to its exit state. -/
theorem encode_loop_inv :
    ∀ (fuel : Nat) (bs ids : List Nat) (merges : List ((Nat × Nat) × Nat))
      (vocab : List (Nat × List Nat)),
      EncInv bs ids merges vocab →
      EncInv bs (encode_loop fuel merges.length ids merges vocab).1
        (encode_loop fuel merges.length ids merges vocab).2.1
        (encode_loop fuel merges.length ids merges vocab).2.2 := by
  intro fuel
  induction fuel with
  | zero => intro bs ids merges vocab hinv; exact hinv
  | succ f ih =>
      intro bs ids merges vocab hinv
      rw [encode_loop_succ]
      cases hmp : max_pair (get_stats ids) with
      | none => exact hinv
      | some e =>
          obtain ⟨hup, hvup, hinv2⟩ := enc_inv_step hinv hmp
          show EncInv bs
            (encode_loop f (merges.length + 1) (merge ids e.1 (256 + merges.length))
              (upsert merges e.1 (256 + merges.length))
              (upsert vocab (256 + merges.length)
                (alookupD vocab e.1.1 [] ++ alookupD vocab e.1.2 []))).1
            (encode_loop f (merges.length + 1) (merge ids e.1 (256 + merges.length))
              (upsert merges e.1 (256 + merges.length))
              (upsert vocab (256 + merges.length)
                (alookupD vocab e.1.1 [] ++ alookupD vocab e.1.2 []))).2.1
            (encode_loop f (merges.length + 1) (merge ids e.1 (256 + merges.length))
              (upsert merges e.1 (256 + merges.length))
              (upsert vocab (256 + merges.length)
                (alookupD vocab e.1.1 [] ++ alookupD vocab e.1.2 []))).2.2
          rw [hup, hvup]
          rw [show merges.length + 1 = (merges ++ [(e.1, 256 + merges.length)]).length from by
            simp]
          exact ih bs _ _ _ hinv2

/-! ### UTF-8 codec: step lemmas and the encode/decode round trip -/

theorem utf8_replace_ascii {b : Nat} (h : b < 0x80) (rest : List Nat) :
    utf8_replace (b :: rest) = b :: utf8_replace rest := by
  rw [utf8_replace.eq_def]
  exact if_pos h

theorem utf8_replace_two {b c2 : Nat} (hb1 : 0xC2 ≤ b) (hb2 : b ≤ 0xDF)
    (hc1 : 0x80 ≤ c2) (hc2 : c2 ≤ 0xBF) (r : List Nat) :
    utf8_replace (b :: c2 :: r) = ((b - 0xC0) * 64 + (c2 - 0x80)) :: utf8_replace r := by
  rw [utf8_replace.eq_def]
  refine Eq.trans (if_neg (by omega)) ?_
  refine Eq.trans (if_pos ⟨hb1, hb2⟩) ?_
  exact if_pos ⟨hc1, hc2⟩

theorem utf8_replace_three {b c2 c3 : Nat} (hb1 : 0xE0 ≤ b) (hb2 : b ≤ 0xEF)
    (hc2 : (if b = 0xE0 then 0xA0 else 0x80) ≤ c2 ∧ c2 ≤ if b = 0xED then 0x9F else 0xBF)
    (hc3 : 0x80 ≤ c3) (hc4 : c3 ≤ 0xBF) (r : List Nat) :
    utf8_replace (b :: c2 :: c3 :: r) =
      ((b - 0xE0) * 4096 + (c2 - 0x80) * 64 + (c3 - 0x80)) :: utf8_replace r := by
  rw [utf8_replace.eq_def]
  refine Eq.trans (if_neg (by omega)) ?_
  refine Eq.trans (if_neg (by omega)) ?_
  refine Eq.trans (if_pos ⟨hb1, hb2⟩) ?_
  refine Eq.trans (if_pos hc2) ?_
  exact if_pos ⟨hc3, hc4⟩

theorem utf8_replace_four {b c2 c3 c4 : Nat} (hb1 : 0xF0 ≤ b) (hb2 : b ≤ 0xF4)
    (hc2 : (if b = 0xF0 then 0x90 else 0x80) ≤ c2 ∧ c2 ≤ if b = 0xF4 then 0x8F else 0xBF)
    (hc3 : 0x80 ≤ c3) (hc4 : c3 ≤ 0xBF) (hc5 : 0x80 ≤ c4) (hc6 : c4 ≤ 0xBF)
    (r : List Nat) :
    utf8_replace (b :: c2 :: c3 :: c4 :: r) =
      ((b - 0xF0) * 262144 + (c2 - 0x80) * 4096 + (c3 - 0x80) * 64 + (c4 - 0x80)) ::
        utf8_replace r := by
  rw [utf8_replace.eq_def]
  refine Eq.trans (if_neg (by omega)) ?_
  refine Eq.trans (if_neg (by omega)) ?_
  refine Eq.trans (if_neg (by omega)) ?_
  refine Eq.trans (if_pos ⟨hb1, hb2⟩) ?_
  refine Eq.trans (if_pos hc2) ?_
  refine Eq.trans (if_pos ⟨hc3, hc4⟩) ?_
  exact if_pos ⟨hc5, hc6⟩

theorem utf8_encode_char_lt {c : Nat} (h : c < 0x110000) :
    ∀ b ∈ utf8_encode_char c, b < 256 := by
  intro b hb
  unfold utf8_encode_char at hb
  by_cases h1 : c < 0x80
  · rw [if_pos h1] at hb
    simp at hb
    omega
  · rw [if_neg h1] at hb
    by_cases h2 : c < 0x800
    · rw [if_pos h2] at hb
      simp at hb
      rcases hb with hb | hb <;> omega
    · rw [if_neg h2] at hb
      by_cases h3 : c < 0x10000
      · rw [if_pos h3] at hb
        simp at hb
        rcases hb with hb | hb | hb <;> omega
      · rw [if_neg h3] at hb
        simp at hb
        rcases hb with hb | hb | hb | hb <;> omega

theorem utf8_encode_lt (cs : List Nat) (h : ∀ c ∈ cs, ValidScalar c) :
    ∀ b ∈ utf8_encode cs, b < 256 := by
  intro b hb
  unfold utf8_encode at hb
  rcases List.mem_flatten.mp hb with ⟨l, hl, hbl⟩
  rcases List.mem_map.mp hl with ⟨c, hc, hcl⟩
  exact utf8_encode_char_lt (h c hc).1 b (hcl ▸ hbl)

/-- Decoding with the replacement policy inverts UTF-8 encoding on every
sequence of valid Unicode scalar values. -/
theorem utf8_round (cs : List Nat) (h : ∀ c ∈ cs, ValidScalar c) :
    utf8_replace (utf8_encode cs) = cs := by
  induction cs with
  | nil => rw [show utf8_encode [] = [] from rfl, utf8_replace.eq_def]
  | cons c cs ih =>
      obtain ⟨hlt, hsur⟩ := h c (List.mem_cons_self _ _)
      have hcs := ih fun x hx => h x (List.mem_cons_of_mem _ hx)
      rw [show utf8_encode (c :: cs) = utf8_encode_char c ++ utf8_encode cs from by
        simp [utf8_encode]]
      by_cases h1 : c < 0x80
      · rw [show utf8_encode_char c = [c] from by simp [utf8_encode_char, h1]]
        rw [show ([c] : List Nat) ++ utf8_encode cs = c :: utf8_encode cs from rfl]
        rw [utf8_replace_ascii h1, hcs]
      · by_cases h2 : c < 0x800
        · rw [show utf8_encode_char c = [0xC0 + c / 64, 0x80 + c % 64] from by
            simp [utf8_encode_char, h1, h2]]
          rw [show ([0xC0 + c / 64, 0x80 + c % 64] : List Nat) ++ utf8_encode cs =
            (0xC0 + c / 64) :: (0x80 + c % 64) :: utf8_encode cs from rfl]
          rw [utf8_replace_two (by omega) (by omega) (by omega) (by omega)]
          rw [show (0xC0 + c / 64 - 0xC0) * 64 + (0x80 + c % 64 - 0x80) = c from by omega,
            hcs]
        · by_cases h3 : c < 0x10000
          · rw [show utf8_encode_char c =
                [0xE0 + c / 4096, 0x80 + c / 64 % 64, 0x80 + c % 64] from by
              simp [utf8_encode_char, h1, h2, h3]]
            rw [show ([0xE0 + c / 4096, 0x80 + c / 64 % 64, 0x80 + c % 64] : List Nat) ++
                utf8_encode cs =
              (0xE0 + c / 4096) :: (0x80 + c / 64 % 64) :: (0x80 + c % 64) ::
                utf8_encode cs from rfl]
            rw [utf8_replace_three (by omega) (by omega)
              (by constructor <;> split <;> omega) (by omega) (by omega)]
            rw [show (0xE0 + c / 4096 - 0xE0) * 4096 + (0x80 + c / 64 % 64 - 0x80) * 64 +
              (0x80 + c % 64 - 0x80) = c from by omega, hcs]
          · rw [show utf8_encode_char c =
                [0xF0 + c / 262144, 0x80 + c / 4096 % 64, 0x80 + c / 64 % 64,
                  0x80 + c % 64] from by
              simp [utf8_encode_char, h1, h2, h3]]
            rw [show ([0xF0 + c / 262144, 0x80 + c / 4096 % 64, 0x80 + c / 64 % 64,
                0x80 + c % 64] : List Nat) ++ utf8_encode cs =
              (0xF0 + c / 262144) :: (0x80 + c / 4096 % 64) :: (0x80 + c / 64 % 64) ::
                (0x80 + c % 64) :: utf8_encode cs from rfl]
            rw [utf8_replace_four (by omega) (by omega)
              (by constructor <;> split <;> omega) (by omega) (by omega) (by omega)
              (by omega)]
            rw [show (0xF0 + c / 262144 - 0xF0) * 262144 + (0x80 + c / 4096 % 64 - 0x80) * 4096 +
              (0x80 + c / 64 % 64 - 0x80) * 64 + (0x80 + c % 64 - 0x80) = c from by omega,
              hcs]

/-! ### Assembly: the invariant at loop exit and the remaining claims -/

theorem encode_inv (bs : List Nat) (V : Nat) (h : ∀ b ∈ bs, b < 256) :
    EncInv bs (encode bs V).1 (encode bs V).2.1 (encode bs V).2.2 := by
  unfold encode
  by_cases hV : V ≤ 256
  · rw [if_pos hV]
    exact enc_inv_init bs h
  · rw [if_neg hV]
    exact encode_loop_inv (V - 256) bs bs [] vocab0 (enc_inv_init bs h)

/-- Any state satisfying the shape invariants decodes back to the original
byte sequence (as the replacement-decoded string of those bytes). -/
theorem decode_of_inv {bs ids : List Nat} {merges : List ((Nat × Nat) × Nat)}
    (hkeyed : IdxKeyed merges) (hacyc : MergesAcyc merges)
    (hexp : ((ids.map (expand_sym (reverse_merges merges))).flatten) = bs)
    (hbs : ∀ b ∈ bs, b < 256) :
    decode ids merges (decode_fuel (reverse_merges merges) ids) =
      some (utf8_replace bs) := by
  have hacyc2 : Acyc (reverse_merges merges) := acyc_reverse hkeyed hacyc
  have hloop := decode_loop_expands hacyc2 (total_nodes (reverse_merges merges) ids)
    ids [] (decode_fuel (reverse_merges merges) ids) (Nat.le_refl _)
    (by intro x hx; cases hx)
    (by simp only [List.length_nil, decode_fuel]; omega)
  simp only [List.nil_append, List.length_nil] at hloop
  unfold decode
  rw [hloop, hexp]
  show (if (bs.all fun s => decide (s < 256)) = true then some (utf8_replace bs)
      else some []) = some (utf8_replace bs)
  rw [if_pos ?_]
  rw [List.all_eq_true]
  intro x hx
  simpa using hbs x hx

/-- C1: the encode/decode pair is lossless.  For every string (given as its
list of Unicode scalar values) and every target vocabulary size, decoding
the trained output (`final_ids` with the learned `merges`) returns exactly
the original string: the cursor loop fully undoes every recorded merge,
`bytes(ids)` succeeds, and UTF-8 decoding inverts the original encoding. -/
theorem encode_decode_roundtrip (cs : List Nat) (V : Nat)
    (h : ∀ c ∈ cs, ValidScalar c) :
    decode (encode (utf8_encode cs) V).1 (encode (utf8_encode cs) V).2.1
      (decode_fuel (reverse_merges (encode (utf8_encode cs) V).2.1)
        (encode (utf8_encode cs) V).1) = some cs := by
  have hbytes : ∀ b ∈ utf8_encode cs, b < 256 := utf8_encode_lt cs h
  have hinv := encode_inv (utf8_encode cs) V hbytes
  rw [decode_of_inv hinv.keyed hinv.acyc hinv.exp_eq hbytes]
  rw [utf8_round cs h]

/-- C1 witness: the classic fixture `"aaabdaaabac"` with vocabulary size 259
(three merges) decodes back to the original text. -/
theorem encode_decode_roundtrip_witness :
    decode (encode (utf8_encode [97, 97, 97, 98, 100, 97, 97, 97, 98, 97, 99]) 259).1
      (encode (utf8_encode [97, 97, 97, 98, 100, 97, 97, 97, 98, 97, 99]) 259).2.1
      (decode_fuel
        (reverse_merges
          (encode (utf8_encode [97, 97, 97, 98, 100, 97, 97, 97, 98, 97, 99]) 259).2.1)
        (encode (utf8_encode [97, 97, 97, 98, 100, 97, 97, 97, 98, 97, 99]) 259).1) =
      some [97, 97, 97, 98, 100, 97, 97, 97, 98, 97, 99] :=
  encode_decode_roundtrip [97, 97, 97, 98, 100, 97, 97, 97, 98, 97, 99] 259 (by decide)

/-- C2 counterexample: the claim says a symbol ≥ 256 with no reverse-map
entry makes `decode` signal an explicit error outcome.  In fact `bytes(ids)`
raises, the `except` clause swallows the exception, and `decode` returns the
ordinary empty string — exactly the same value a caller gets from decoding
the empty token stream, so no error outcome is observable. -/
theorem decode_corrupt_counterexample :
    decode [256] [] 2 = some [] ∧ decode [] [] 1 = some [] := by
  constructor
  · rfl
  · unfold decode
    show (if (List.all [] fun s => decide (s < 256)) = true then some (utf8_replace [])
        else some []) = some []
    rw [if_pos (show (List.all [] fun s => decide (s < 256)) = true from rfl),
      utf8_replace.eq_def]

/-- C2 (amended): `decode` on a stream containing a symbol ≥ 256 absent from
the reverse map leaves that symbol unexpanded, the byte conversion fails,
the exception is caught internally, and the function returns the empty
string (never a substituted or truncated text, but also not an explicit
error outcome). -/
theorem decode_corrupt_returns_empty (encoded : List Nat)
    (merges : List ((Nat × Nat) × Nat)) (fuel : Nat) (s : Nat)
    (hs : s ∈ encoded) (hs256 : 256 ≤ s)
    (habs : alookup (reverse_merges merges) s = none)
    (out : List Nat)
    (hrun : decode_loop fuel 0 encoded (reverse_merges merges) = some out) :
    decode encoded merges fuel = some [] := by
  have hmem := decode_loop_mem _ _ _ _ s hrun hs habs
  have hnall : ¬ (out.all (fun x => decide (x < 256)) = true) := by
    intro hall
    have := List.all_eq_true.mp hall s hmem
    simp at this
    omega
  unfold decode
  rw [hrun]
  show (if (out.all fun s => decide (s < 256)) = true then some (utf8_replace out)
      else some []) = some []
  rw [if_neg hnall]

/-- C2 witness: decoding `[256]` with an empty rule table returns `""`. -/
theorem decode_corrupt_returns_empty_witness : decode [256] [] 2 = some [] :=
  decode_corrupt_returns_empty [256] [] 2 256 (by decide) (by decide) rfl
    [256] rfl

/-- C6: for every rule `(p0, p1) -> new_id` produced by training, the
vocabulary satisfies `vocab[new_id] = vocab[p0] ++ vocab[p1]`, and every
vocabulary entry equals the full expansion of its id down to base bytes
through the learned rules. -/
theorem vocab_concat (bs : List Nat) (V : Nat) (h : ∀ b ∈ bs, b < 256) :
    (∀ e ∈ (encode bs V).2.1,
        alookupD (encode bs V).2.2 e.2 [] =
          alookupD (encode bs V).2.2 e.1.1 [] ++ alookupD (encode bs V).2.2 e.1.2 []) ∧
      ∀ k, k < 256 + (encode bs V).2.1.length →
        alookupD (encode bs V).2.2 k [] =
          expand_sym (reverse_merges (encode bs V).2.1) k := by
  have hinv := encode_inv bs V h
  refine ⟨?_, hinv.vexp⟩
  intro e he
  have hb := idx_bound_of_mem hinv.keyed he
  have ha := hinv.acyc e he
  have hlook : alookup (reverse_merges (encode bs V).2.1) e.2 = some e.1 :=
    alookup_reverse_of_mem hinv.keyed he
  rw [hinv.vexp e.2 hb.2, hinv.vexp e.1.1 (by omega), hinv.vexp e.1.2 (by omega)]
  exact expand_sym_node hlook ha.1 ha.2

/-- C6 witness: training `[97, 97, 98]` with vocabulary size 257 produces
the rule `(97, 97) -> 256` and `vocab[256] = vocab[97] ++ vocab[97]`. -/
theorem vocab_concat_witness :
    (∀ e ∈ (encode [97, 97, 98] 257).2.1,
        alookupD (encode [97, 97, 98] 257).2.2 e.2 [] =
          alookupD (encode [97, 97, 98] 257).2.2 e.1.1 [] ++
            alookupD (encode [97, 97, 98] 257).2.2 e.1.2 []) ∧
      ∀ k, k < 256 + (encode [97, 97, 98] 257).2.1.length →
        alookupD (encode [97, 97, 98] 257).2.2 k [] =
          expand_sym (reverse_merges (encode [97, 97, 98] 257).2.1) k :=
  vocab_concat [97, 97, 98] 257 (by decide)

/-- C7: after any training run (early stop included) the assigned new ids
are exactly 256, 257, … in creation order with no gaps or repeats, and the
vocabulary has exactly `256 + len(rules)` entries. -/
theorem ids_contiguous (bs : List Nat) (V : Nat) (h : ∀ b ∈ bs, b < 256) :
    (encode bs V).2.1.map Prod.snd = List.range' 256 (encode bs V).2.1.length ∧
      (encode bs V).2.2.length = 256 + (encode bs V).2.1.length := by
  have hinv := encode_inv bs V h
  refine ⟨hinv.keyed, ?_⟩
  have := congrArg List.length hinv.vkeys
  simpa using this

/-- C7 witness: the fixture `"aaabdaaabac"` with vocabulary size 259 yields
ids 256, 257, 258 and a 259-entry vocabulary. -/
theorem ids_contiguous_witness :
    (encode [97, 97, 97, 98, 100, 97, 97, 97, 98, 97, 99] 259).2.1.map Prod.snd =
        List.range' 256 (encode [97, 97, 97, 98, 100, 97, 97, 97, 98, 97, 99] 259).2.1.length ∧
      (encode [97, 97, 97, 98, 100, 97, 97, 97, 98, 97, 99] 259).2.2.length =
        256 + (encode [97, 97, 97, 98, 100, 97, 97, 97, 98, 97, 99] 259).2.1.length :=
  ids_contiguous [97, 97, 97, 98, 100, 97, 97, 97, 98, 97, 99] 259 (by decide)

/-- C9: whenever the expansion loop of `decode` produces only base-byte
symbols, `decode` succeeds and returns the replacement-policy UTF-8 decoding
of those bytes — the UTF-8 validity of the bytes is never checked, so
invalid UTF-8 is never propagated as a fatal error, each malformed unit
being replaced in the output string instead. -/
theorem decode_replaces_invalid (encoded : List Nat)
    (merges : List ((Nat × Nat) × Nat)) (fuel : Nat) (out : List Nat)
    (hrun : decode_loop fuel 0 encoded (reverse_merges merges) = some out)
    (hbytes : ∀ b ∈ out, b < 256) :
    decode encoded merges fuel = some (utf8_replace out) := by
  unfold decode
  rw [hrun]
  show (if (out.all fun s => decide (s < 256)) = true then some (utf8_replace out)
      else some []) = some (utf8_replace out)
  rw [if_pos ?_]
  rw [List.all_eq_true]
  intro x hx
  simpa using hbytes x hx

/-- C9 witness: the token stream `[255]` expands to the single byte 255,
which is not valid UTF-8, and `decode` succeeds returning the replacement
character U+FFFD. -/
theorem decode_replaces_invalid_witness : decode [255] [] 2 = some [0xFFFD] := by
  have h := decode_replaces_invalid [255] [] 2 [255] rfl (by decide)
  rw [h]
  rw [show utf8_replace [255] = [0xFFFD] from by
    rw [utf8_replace.eq_def]
    norm_num
    rw [utf8_replace.eq_def]]

/-- C10: every rule produced by training has both pair components strictly
below the assigned new id, so the merge hierarchy is acyclic and the
expansion loop of `decode` terminates on any token stream, computing the
full expansion. -/
theorem rules_acyclic_decode_terminates (bs : List Nat) (V : Nat)
    (h : ∀ b ∈ bs, b < 256) :
    (∀ e ∈ (encode bs V).2.1, e.1.1 < e.2 ∧ e.1.2 < e.2) ∧
      ∀ tokens : List Nat,
        decode_loop (decode_fuel (reverse_merges (encode bs V).2.1) tokens) 0 tokens
            (reverse_merges (encode bs V).2.1) =
          some ((tokens.map (expand_sym (reverse_merges (encode bs V).2.1))).flatten) := by
  have hinv := encode_inv bs V h
  refine ⟨hinv.acyc, fun tokens => ?_⟩
  have hloop := decode_loop_expands (acyc_reverse hinv.keyed hinv.acyc)
    (total_nodes (reverse_merges (encode bs V).2.1) tokens) tokens []
    (decode_fuel (reverse_merges (encode bs V).2.1) tokens) (Nat.le_refl _)
    (by intro x hx; cases hx)
    (by simp only [List.length_nil, decode_fuel]; omega)
  simpa using hloop

/-- C10 witness: on the fixture `"aaabdaaabac"` at size 259 the rules are
acyclic and decoding terminates on an arbitrary token stream. -/
theorem rules_acyclic_decode_terminates_witness :
    (∀ e ∈ (encode [97, 97, 97, 98, 100, 97, 97, 97, 98, 97, 99] 259).2.1,
        e.1.1 < e.2 ∧ e.1.2 < e.2) ∧
      ∀ tokens : List Nat,
        decode_loop
            (decode_fuel
              (reverse_merges (encode [97, 97, 97, 98, 100, 97, 97, 97, 98, 97, 99] 259).2.1)
              tokens)
            0 tokens
            (reverse_merges (encode [97, 97, 97, 98, 100, 97, 97, 97, 98, 97, 99] 259).2.1) =
          some ((tokens.map
            (expand_sym
              (reverse_merges
                (encode [97, 97, 97, 98, 100, 97, 97, 97, 98, 97, 99] 259).2.1))).flatten) :=
  rules_acyclic_decode_terminates [97, 97, 97, 98, 100, 97, 97, 97, 98, 97, 99] 259
    (by decide)

end BPE
